import Mathlib

/-!
Verification development for the proquest-dl repository.

The repository downloads a periodical issue from ProQuest and reassembles
the per-article PDFs into one bookmarked issue PDF.  The definitions below
are shallow embeddings of the page-range parsing, file-naming, download
bookkeeping, page-explosion, gap-filling, sorting and bookmarking logic of
`src/src/ProQuestWebScraper.py`, `src/src/proquest-dl.py` and
`src/proquest_dl/proquest_dl.py`.  Python strings are modelled as `List Char`,
Python sets as `Finset`, exceptions as `Option`.
-/

/-- Value of a decimal digit character, as Python `int` sees it
(`c.toNat - '0'.toNat`). -/
def digitVal (c : Char) : Nat := c.toNat - '0'.toNat

/-- The decimal digit character for `d ≤ 9` (Python `str` of a single digit). -/
def digitChar : Nat → Char
  | 0 => '0' | 1 => '1' | 2 => '2' | 3 => '3' | 4 => '4'
  | 5 => '5' | 6 => '6' | 7 => '7' | 8 => '8' | _ => '9'

/-- Numeric value of a digit string, most significant digit first. -/
def valDigits (l : List Char) : Nat := l.foldl (fun a c => 10 * a + digitVal c) 0

/-- A well-formed decimal token: nonempty and all digits. -/
def isDigitStr (l : List Char) : Prop := l ≠ [] ∧ ∀ c ∈ l, c.isDigit

instance : DecidablePred isDigitStr := fun l => by
  unfold isDigitStr; infer_instance

/-- Embedding of Python `int(s)` on the tokens produced by the citation and
filename parsers: succeeds exactly on nonempty all-digit strings, returning
their decimal value; any other token raises `ValueError`, modelled as `none`. -/
def parseInt (l : List Char) : Option Nat :=
  if isDigitStr l then some (valDigits l) else none

/-- Digits of `n`, least significant first, with explicit fuel so that the
kernel can evaluate it. -/
def revDigitsF : Nat → Nat → List Char
  | 0, _ => []
  | fuel + 1, n =>
    if n < 10 then [digitChar n]
    else digitChar (n % 10) :: revDigitsF fuel (n / 10)

/-- Digits of `n`, least significant first. -/
def revDigits (n : Nat) : List Char := revDigitsF (n + 1) n

/-- Embedding of Python `str(n)` for a natural number: its decimal numeral. -/
def strNat (n : Nat) : List Char := (revDigits n).reverse

/-- Value of a digit list, least significant digit first. -/
def valRev : List Char → Nat
  | [] => 0
  | d :: t => digitVal d + 10 * valRev t

theorem digitVal_digitChar {d : Nat} (h : d < 10) : digitVal (digitChar d) = d := by
  interval_cases d <;> decide

theorem isDigit_digitChar (d : Nat) : (digitChar d).isDigit = true := by
  unfold digitChar
  split <;> decide

theorem valDigits_append_singleton (l : List Char) (c : Char) :
    valDigits (l ++ [c]) = 10 * valDigits l + digitVal c := by
  unfold valDigits
  rw [List.foldl_append]
  rfl

theorem valDigits_reverse (l : List Char) : valDigits l.reverse = valRev l := by
  induction l with
  | nil => rfl
  | cons d t ih =>
    rw [List.reverse_cons, valDigits_append_singleton, ih, valRev]
    omega

theorem valRev_revDigitsF :
    ∀ fuel n, n < fuel → valRev (revDigitsF fuel n) = n := by
  intro fuel
  induction fuel with
  | zero => intro n h; omega
  | succ f ih =>
    intro n hn
    rw [revDigitsF]
    by_cases h : n < 10
    · simp only [h, if_pos]
      rw [valRev, valRev, digitVal_digitChar h]
      omega
    · simp only [h, if_neg, not_false_iff]
      rw [valRev]
      have hdiv : n / 10 < f := by
        have h1 : n / 10 < n := Nat.div_lt_self (by omega) (by omega)
        omega
      rw [ih (n / 10) hdiv, digitVal_digitChar (Nat.mod_lt n (by omega))]
      omega

theorem valRev_revDigits (n : Nat) : valRev (revDigits n) = n :=
  valRev_revDigitsF (n + 1) n (Nat.lt_succ_self n)

theorem valDigits_strNat (n : Nat) : valDigits (strNat n) = n := by
  rw [strNat, valDigits_reverse, valRev_revDigits]

theorem strNat_injective : Function.Injective strNat := by
  intro a b h
  have := valDigits_strNat a
  rw [h, valDigits_strNat] at this
  omega

theorem revDigits_ne_nil (n : Nat) : revDigits n ≠ [] := by
  rw [revDigits, revDigitsF]
  by_cases h : n < 10 <;> simp [h]

theorem strNat_ne_nil (n : Nat) : strNat n ≠ [] := by
  rw [strNat]
  simp [revDigits_ne_nil n]

theorem revDigitsF_all_digit :
    ∀ fuel n, ∀ c ∈ revDigitsF fuel n, c.isDigit := by
  intro fuel
  induction fuel with
  | zero => intro n c hc; exact absurd hc (List.not_mem_nil c)
  | succ f ih =>
    intro n c hc
    rw [revDigitsF] at hc
    by_cases h : n < 10
    · rw [if_pos h, List.mem_singleton] at hc
      rw [hc]; exact isDigit_digitChar n
    · rw [if_neg h] at hc
      rcases List.mem_cons.mp hc with h1 | h2
      · rw [h1]; exact isDigit_digitChar _
      · exact ih (n / 10) c h2

theorem revDigits_all_digit (n : Nat) : ∀ c ∈ revDigits n, c.isDigit :=
  revDigitsF_all_digit (n + 1) n

theorem strNat_isDigitStr (n : Nat) : isDigitStr (strNat n) := by
  refine ⟨strNat_ne_nil n, ?_⟩
  intro c hc
  rw [strNat, List.mem_reverse] at hc
  exact revDigits_all_digit n c hc

theorem parseInt_strNat (n : Nat) : parseInt (strNat n) = some n := by
  rw [parseInt, if_pos (strNat_isDigitStr n), valDigits_strNat]

theorem parseInt_isDigitStr {l : List Char} (h : isDigitStr l) :
    parseInt l = some (valDigits l) := by
  rw [parseInt, if_pos h]

/-- Embedding of Python `s.split(sep)` for a single-character separator:
splitting the empty string yields `[[]]`, and separators delimit (possibly
empty) fields. -/
def splitSep (c : Char) : List Char → List (List Char)
  | [] => [[]]
  | h :: t =>
    match splitSep c t with
    | [] => [[]]
    | x :: xs => if h = c then [] :: x :: xs else (h :: x) :: xs

/-- Embedding of Python `sep.join(parts)` for a single-character separator. -/
def joinSep (c : Char) : List (List Char) → List Char
  | [] => []
  | [x] => x
  | x :: y :: t => x ++ c :: joinSep c (y :: t)

theorem splitSep_ne_nil (c : Char) (l : List Char) : splitSep c l ≠ [] := by
  induction l with
  | nil => simp [splitSep]
  | cons h t ih =>
    rw [splitSep]
    rcases heq : splitSep c t with _ | ⟨x, xs⟩
    · simp
    · by_cases hc : h = c <;> simp [hc]

theorem splitSep_not_mem {c : Char} {l : List Char} (h : c ∉ l) :
    splitSep c l = [l] := by
  induction l with
  | nil => rfl
  | cons a t ih =>
    have ha : a ≠ c := fun hac => h (by rw [hac]; exact List.mem_cons_self _ _)
    have ht : c ∉ t := fun hct => h (List.mem_cons_of_mem _ hct)
    rw [splitSep, ih ht]
    simp [ha]

theorem splitSep_append_cons {c : Char} {xs : List Char} (ys : List Char)
    (h : c ∉ xs) : splitSep c (xs ++ c :: ys) = xs :: splitSep c ys := by
  induction xs with
  | nil =>
    rw [List.nil_append, splitSep]
    rcases heq : splitSep c ys with _ | ⟨x, l⟩
    · exact absurd heq (splitSep_ne_nil c ys)
    · simp [heq]
  | cons a t ih =>
    have ha : a ≠ c := fun hac => h (by rw [hac]; exact List.mem_cons_self _ _)
    have ht : c ∉ t := fun hct => h (List.mem_cons_of_mem _ hct)
    rw [List.cons_append, splitSep, ih ht]
    simp [ha]

theorem splitSep_joinSep {c : Char} (ls : List (List Char)) (hne : ls ≠ [])
    (h : ∀ x ∈ ls, c ∉ x) : splitSep c (joinSep c ls) = ls := by
  induction ls with
  | nil => exact absurd rfl hne
  | cons x t ih =>
    rcases t with _ | ⟨y, t2⟩
    · rw [joinSep]
      exact splitSep_not_mem (h x (List.mem_cons_self _ _))
    · rw [joinSep, splitSep_append_cons _ (h x (List.mem_cons_self _ _))]
      rw [ih (by simp) (fun z hz => h z (List.mem_cons_of_mem _ hz))]

/-- Explicitly sequenced `Option`-valued map, the model of a Python loop whose
body may raise: any raise aborts the whole loop. -/
def mapOpt (f : α → Option β) : List α → Option (List β)
  | [] => some []
  | a :: t =>
    match f a, mapOpt f t with
    | some b, some bs => some (b :: bs)
    | _, _ => none

theorem mapOpt_eq_some_of_forall {f : α → Option β} (g : α → β) :
    ∀ {l : List α}, (∀ x ∈ l, f x = some (g x)) → mapOpt f l = some (l.map g)
  | [], _ => rfl
  | a :: t, h => by
    rw [mapOpt, h a (List.mem_cons_self _ _),
      mapOpt_eq_some_of_forall g (fun x hx => h x (List.mem_cons_of_mem _ hx))]
    rfl

/-- The citation-parsing step of `ProQuestWebScraper.retrieve_articles_list`
(src/src/ProQuestWebScraper.py, lines 220-225), applied to the cleaned
citation string (whitespace and the trailing period already removed):
`for page_part in pages_str.split(","): for page in page_part.split("-"):
pages.append(int(page.strip()))`.  A `ValueError` anywhere aborts the whole
loop (the surrounding `try`), modelled as `none`. -/
def retrieve_articles_list_pages (s : List Char) : Option (List Nat) :=
  mapOpt parseInt ((splitSep ',' s).flatMap (splitSep '-'))

/-- Modelled from the spec (section 4.1), for comparison with the code:
"split on commas; for each comma-separated token, split on a hyphen; if two
endpoints are present, expand to the full inclusive integer range; collect,
dedupe, sort ascending." -/
def spec_page_range_expansion (s : List Char) : Option (List Nat) :=
  match mapOpt
      (fun t =>
        match splitSep '-' t with
        | [a] => (parseInt a).map (fun n => [n])
        | [a, b] =>
          match parseInt a, parseInt b with
          | some x, some y => some (List.range' x (y + 1 - x))
          | _, _ => none
        | _ => none)
      (splitSep ',' s) with
  | some ls => some (List.dedup (List.insertionSort (· ≤ ·) ls.flatten))
  | none => none

/-- A syntactically well-formed citation item: a lone page number or a
hyphenated pair of page numbers, each given by its decimal digit token. -/
inductive CitItem where
  | single (s : List Char)
  | pair (s1 s2 : List Char)
deriving DecidableEq

/-- The raw text of a citation item. -/
def CitItem.render : CitItem → List Char
  | .single s => s
  | .pair s1 s2 => s1 ++ '-' :: s2

/-- Well-formedness of a citation item: every token is a decimal numeral. -/
def CitItem.wf : CitItem → Prop
  | .single s => isDigitStr s
  | .pair s1 s2 => isDigitStr s1 ∧ isDigitStr s2

/-- The integers that the code's citation parsing extracts from one item:
only the endpoints, in textual order. -/
def CitItem.endpoints : CitItem → List Nat
  | .single s => [valDigits s]
  | .pair s1 s2 => [valDigits s1, valDigits s2]

/-- A full citation string: comma-joined items. -/
def renderCitation (items : List CitItem) : List Char :=
  joinSep ',' (items.map CitItem.render)

theorem not_mem_of_isDigitStr {c : Char} {s : List Char} (h : isDigitStr s)
    (hc : c.isDigit = false) : c ∉ s := by
  intro hmem
  have := h.2 c hmem
  rw [hc] at this
  exact Bool.noConfusion this

theorem comma_not_mem_render {it : CitItem} (h : it.wf) : ',' ∉ it.render := by
  cases it with
  | single s => exact not_mem_of_isDigitStr h (by decide)
  | pair s1 s2 =>
    rw [CitItem.render]
    intro hmem
    rcases List.mem_append.mp hmem with h1 | h2
    · exact not_mem_of_isDigitStr h.1 (by decide) h1
    · rcases List.mem_cons.mp h2 with h3 | h4
      · exact absurd h3 (by decide)
      · exact not_mem_of_isDigitStr h.2 (by decide) h4

theorem splitSep_hyphen_render {it : CitItem} (h : it.wf) :
    splitSep '-' it.render = match it with
      | .single s => [s]
      | .pair s1 s2 => [s1, s2] := by
  cases it with
  | single s => exact splitSep_not_mem (not_mem_of_isDigitStr h (by decide))
  | pair s1 s2 =>
    rw [CitItem.render,
      splitSep_append_cons _ (not_mem_of_isDigitStr h.1 (by decide)),
      splitSep_not_mem (not_mem_of_isDigitStr h.2 (by decide))]

/-- The digit tokens of a citation item, in textual order. -/
def CitItem.tokens : CitItem → List (List Char)
  | .single s => [s]
  | .pair s1 s2 => [s1, s2]

theorem endpoints_eq_tokens_map (it : CitItem) :
    it.endpoints = it.tokens.map valDigits := by
  cases it <;> rfl

theorem flatMap_render_splitSep {items : List CitItem}
    (hwf : ∀ it ∈ items, it.wf) :
    (items.map CitItem.render).flatMap (splitSep '-') =
      items.flatMap CitItem.tokens := by
  induction items with
  | nil => rfl
  | cons it t ih =>
    rw [List.map_cons, List.flatMap_cons, List.flatMap_cons,
      splitSep_hyphen_render (hwf it (List.mem_cons_self _ _)),
      ih (fun x hx => hwf x (List.mem_cons_of_mem _ hx))]
    cases it <;> rfl

theorem tokens_isDigitStr {it : CitItem} (h : it.wf) :
    ∀ s ∈ it.tokens, isDigitStr s := by
  cases it with
  | single s =>
    intro x hx
    rw [CitItem.tokens, List.mem_singleton] at hx
    rw [hx]; exact h
  | pair s1 s2 =>
    intro x hx
    rw [CitItem.tokens] at hx
    rcases List.mem_cons.mp hx with h1 | h2
    · rw [h1]; exact h.1
    · rw [List.mem_singleton] at h2; rw [h2]; exact h.2

instance : DecidablePred CitItem.wf := fun it => by
  cases it <;> (unfold CitItem.wf; infer_instance)

theorem map_valDigits_flatMap_tokens (items : List CitItem) :
    (items.flatMap CitItem.tokens).map valDigits =
      items.flatMap CitItem.endpoints := by
  induction items with
  | nil => rfl
  | cons it t ih =>
    rw [List.flatMap_cons, List.flatMap_cons, List.map_append, ih,
      endpoints_eq_tokens_map]

/-- C1 (amended): for every citation string made of comma-separated tokens,
each a single decimal integer or a hyphenated pair `a-b`, the citation-parsing
step of `retrieve_articles_list` collects exactly the integer endpoints of the
tokens, in textual order: a hyphenated token contributes only its two
endpoints (no expansion of the interior range), and the result is neither
deduplicated nor sorted. -/
theorem C1_parser_collects_endpoints (items : List CitItem) (hne : items ≠ [])
    (hwf : ∀ it ∈ items, it.wf) :
    retrieve_articles_list_pages (renderCitation items) =
      some (items.flatMap CitItem.endpoints) := by
  rw [retrieve_articles_list_pages, renderCitation,
    splitSep_joinSep _ (by simpa using hne)
      (fun x hx => by
        rcases List.mem_map.mp hx with ⟨it, hit, rfl⟩
        exact comma_not_mem_render (hwf it hit)),
    flatMap_render_splitSep hwf,
    mapOpt_eq_some_of_forall valDigits
      (fun x hx => by
        rcases List.mem_flatMap.mp hx with ⟨it, hit, hx2⟩
        exact parseInt_isDigitStr (tokens_isDigitStr (hwf it hit) x hx2)),
    map_valDigits_flatMap_tokens]

/-- C1 witness: instantiating the amended parser theorem on the citation
`"12-14,16"` yields the endpoint list `[12, 14, 16]`. -/
theorem C1_parser_collects_endpoints_witness :
    renderCitation [CitItem.pair "12".data "14".data,
      CitItem.single "16".data] = "12-14,16".data ∧
    retrieve_articles_list_pages ("12-14,16".data) = some [12, 14, 16] := by
  refine ⟨by decide, ?_⟩
  have h := C1_parser_collects_endpoints
    [CitItem.pair "12".data "14".data, CitItem.single "16".data]
    (by decide) (by decide)
  rw [show renderCitation [CitItem.pair "12".data "14".data,
      CitItem.single "16".data] = "12-14,16".data by decide] at h
  rw [h]
  decide

/-- C1 counterexample: on the claim's own example `"12-14,16"` the code's
citation parsing yields `[12, 14, 16]`, not the sorted deduplicated expanded
set `{12, 13, 14, 16}` the claim describes (the interior page 13 is absent). -/
theorem C1_counterexample :
    retrieve_articles_list_pages ("12-14,16".data) = some [12, 14, 16] ∧
    spec_page_range_expansion ("12-14,16".data) = some [12, 13, 14, 16] ∧
    retrieve_articles_list_pages ("12-14,16".data) ≠
      spec_page_range_expansion ("12-14,16".data) := by
  exact ⟨by decide, by decide, by decide⟩

/-- An element of the scraper's running `downloaded_pages` Python set, which
mixes the string `"toc"` with integer page numbers
(src/src/ProQuestWebScraper.py, lines 132-135). -/
inductive PageTok where
  | toc
  | page (n : Nat)
deriving DecidableEq

/-- Embedding of the `Article` dataclass (src/src/Article.py). -/
structure Article where
  title : List Char
  pages : List Nat
  pdfurl : List Char
  is_toc : Bool
deriving DecidableEq

/-- Embedding of Python `min(l)` for a nonempty list (`min([])` raises, the
scraper never reaches that case for a non-TOC article). -/
def listMin : List Nat → Nat
  | [] => 0
  | h :: t => t.foldl Nat.min h

/-- Embedding of Python `max(l)` for a nonempty list. -/
def listMax : List Nat → Nat
  | [] => 0
  | h :: t => t.foldl Nat.max h

theorem foldl_min_le_init (t : List Nat) : ∀ acc, t.foldl Nat.min acc ≤ acc := by
  induction t with
  | nil => intro acc; exact Nat.le_refl acc
  | cons h tl ih =>
    intro acc
    rw [List.foldl_cons]
    exact Nat.le_trans (ih (Nat.min acc h)) (Nat.min_le_left acc h)

theorem foldl_min_le_mem (t : List Nat) :
    ∀ acc, ∀ x ∈ t, t.foldl Nat.min acc ≤ x := by
  induction t with
  | nil => intro acc x hx; exact absurd hx (List.not_mem_nil x)
  | cons h tl ih =>
    intro acc x hx
    rw [List.foldl_cons]
    rcases List.mem_cons.mp hx with h1 | h2
    · rw [h1]
      exact Nat.le_trans (foldl_min_le_init tl _) (Nat.min_le_right acc h)
    · exact ih _ x h2

theorem init_le_foldl_max (t : List Nat) : ∀ acc, acc ≤ t.foldl Nat.max acc := by
  induction t with
  | nil => intro acc; exact Nat.le_refl acc
  | cons h tl ih =>
    intro acc
    rw [List.foldl_cons]
    exact Nat.le_trans (Nat.le_max_left acc h) (ih (Nat.max acc h))

theorem mem_le_foldl_max (t : List Nat) :
    ∀ acc, ∀ x ∈ t, x ≤ t.foldl Nat.max acc := by
  induction t with
  | nil => intro acc x hx; exact absurd hx (List.not_mem_nil x)
  | cons h tl ih =>
    intro acc x hx
    rw [List.foldl_cons]
    rcases List.mem_cons.mp hx with h1 | h2
    · rw [h1]
      exact Nat.le_trans (Nat.le_max_right acc h) (init_le_foldl_max tl _)
    · exact ih _ x h2

theorem listMin_le_of_mem {l : List Nat} {x : Nat} (hx : x ∈ l) :
    listMin l ≤ x := by
  cases l with
  | nil => exact absurd hx (List.not_mem_nil x)
  | cons h t =>
    rcases List.mem_cons.mp hx with h1 | h2
    · rw [h1, listMin]; exact foldl_min_le_init t h
    · rw [listMin]; exact foldl_min_le_mem t h x h2

theorem le_listMax_of_mem {l : List Nat} {x : Nat} (hx : x ∈ l) :
    x ≤ listMax l := by
  cases l with
  | nil => exact absurd hx (List.not_mem_nil x)
  | cons h t =>
    rcases List.mem_cons.mp hx with h1 | h2
    · rw [h1, listMax]; exact init_le_foldl_max t h
    · rw [listMax]; exact mem_le_foldl_max t h x h2

/-- The set the scraper checks and records for an article: the literal token
`"toc"` for the table of contents, otherwise
`set(range(min(article.pages), max(article.pages)+1))`, the contiguous hull
of the article's page list (src/src/ProQuestWebScraper.py, lines 132-135). -/
def article_page_range (a : Article) : Finset PageTok :=
  if a.is_toc then {PageTok.toc}
  else (Finset.Icc (listMin a.pages) (listMax a.pages)).image PageTok.page

/-- The filename `"pages_" + body + ".pdf"`. -/
def mkPagesName (body : List Char) : List Char :=
  "pages_".data ++ body ++ ".pdf".data

/-- The destination filename of an article's PDF:
`"pages_toc.pdf"` for the TOC, otherwise
`"pages_" + ",".join(str(x) for x in sorted(article.pages)) + ".pdf"`
(src/src/ProQuestWebScraper.py, lines 150-156). -/
def article_pdf_name (a : Article) : List Char :=
  if a.is_toc then mkPagesName "toc".data
  else mkPagesName (joinSep ',' ((List.insertionSort (· ≤ ·) a.pages).map strNat))

/-- Outcome of one `download_article` call: the updated `downloaded_pages`
set, the files written, whether any network access happened, and which (if
any) skip branch returned early. -/
structure DownloadResult where
  downloaded : Finset PageTok
  wrote : List (List Char)
  network : Bool
  skippedAllPages : Bool
  skippedFileExists : Bool
deriving DecidableEq

/-- Embedding of `ProQuestWebScraper.download_article`
(src/src/ProQuestWebScraper.py, lines 129-185).  `downloaded` is the running
`self.downloaded_pages` set, `fs` the set of filenames already on disk.
The steps, in source order: compute the page range (hull or `{"toc"}`);
return if no page is missing; add the whole range to `downloaded_pages`
(before any download attempt); compute the destination filename; return if
that file exists; otherwise fetch the article over the network, write the
file, and sleep. -/
def download_article (downloaded : Finset PageTok) (fs : Finset (List Char))
    (a : Article) : DownloadResult :=
  let page_range := article_page_range a
  let missing_pages := page_range \ downloaded
  if missing_pages = ∅ then
    ⟨downloaded, [], false, true, false⟩
  else
    let downloaded2 := downloaded ∪ page_range
    let pdffn := article_pdf_name a
    if pdffn ∈ fs then
      ⟨downloaded2, [], false, false, true⟩
    else
      ⟨downloaded2, [pdffn], true, false, false⟩

theorem download_article_skippedAllPages_iff (downloaded : Finset PageTok)
    (fs : Finset (List Char)) (a : Article) :
    (download_article downloaded fs a).skippedAllPages = true ↔
      article_page_range a ⊆ downloaded := by
  rw [download_article]
  by_cases h : article_page_range a \ downloaded = ∅
  · simp only [h, if_pos]
    simpa [Finset.sdiff_eq_empty_iff_subset] using h
  · simp only [h, if_neg, not_false_iff]
    rw [Finset.sdiff_eq_empty_iff_subset] at h
    by_cases h2 : article_pdf_name a ∈ fs <;> simp [h2, h]

theorem download_article_of_skip {downloaded : Finset PageTok}
    {fs : Finset (List Char)} {a : Article}
    (h : article_page_range a ⊆ downloaded) :
    download_article downloaded fs a =
      ⟨downloaded, [], false, true, false⟩ := by
  rw [download_article]
  simp [Finset.sdiff_eq_empty_iff_subset.mpr h]

/-- The contiguous hull `{min(pages), ..., max(pages)}` of an article's page
list, as recorded in `downloaded_pages`. -/
def pageHull (a : Article) : Finset PageTok :=
  (Finset.Icc (listMin a.pages) (listMax a.pages)).image PageTok.page

theorem article_page_range_eq_hull {a : Article} (htoc : a.is_toc = false) :
    article_page_range a = pageHull a := by
  rw [article_page_range, pageHull, htoc]
  rfl

theorem mem_pageHull_of_mem_pages {a : Article} {p : Nat} (hp : p ∈ a.pages) :
    PageTok.page p ∈ pageHull a :=
  Finset.mem_image.mpr
    ⟨p, Finset.mem_Icc.mpr ⟨listMin_le_of_mem hp, le_listMax_of_mem hp⟩, rfl⟩

theorem download_article_downloaded_of_not_subset {downloaded : Finset PageTok}
    {fs : Finset (List Char)} {a : Article}
    (h : ¬ article_page_range a ⊆ downloaded) :
    (download_article downloaded fs a).downloaded =
      downloaded ∪ article_page_range a := by
  rw [download_article]
  have hne : article_page_range a \ downloaded ≠ ∅ := fun he =>
    h (Finset.sdiff_eq_empty_iff_subset.mp he)
  by_cases h2 : article_pdf_name a ∈ fs <;> simp [hne, h2]

/-- C3 (amended): for a non-TOC article, `download_article` skips on its
"already have all the pages" branch if and only if the article's contiguous
hull `{min(pages), ..., max(pages)}` is a subset of the running
`downloaded_pages` set — not merely its page set; when it does skip, it
performs no network access, writes nothing, leaves the set unchanged, and
(since the page set is contained in the hull) every listed page is indeed in
the downloaded set. -/
theorem C3_skip_iff_hull (downloaded : Finset PageTok) (fs : Finset (List Char))
    (a : Article) (htoc : a.is_toc = false) :
    ((download_article downloaded fs a).skippedAllPages = true ↔
      pageHull a ⊆ downloaded) ∧
    (pageHull a ⊆ downloaded →
      download_article downloaded fs a = ⟨downloaded, [], false, true, false⟩ ∧
      ∀ p ∈ a.pages, PageTok.page p ∈ downloaded) := by
  constructor
  · rw [download_article_skippedAllPages_iff, article_page_range_eq_hull htoc]
  · intro hsub
    refine ⟨download_article_of_skip ?_, fun p hp => hsub (mem_pageHull_of_mem_pages hp)⟩
    rw [article_page_range_eq_hull htoc]
    exact hsub

/-- C3 witness: with `downloaded_pages = {12, 13, 14}` an article listing
page 13 is skipped on the subset branch with no network access. -/
theorem C3_skip_iff_hull_witness :
    (download_article {PageTok.page 12, PageTok.page 13, PageTok.page 14} ∅
      ⟨"B".data, [13], "u".data, false⟩).skippedAllPages = true ∧
    (download_article {PageTok.page 12, PageTok.page 13, PageTok.page 14} ∅
      ⟨"B".data, [13], "u".data, false⟩).network = false := by
  have h := C3_skip_iff_hull
    {PageTok.page 12, PageTok.page 13, PageTok.page 14} ∅
    ⟨"B".data, [13], "u".data, false⟩ rfl
  have hsub : pageHull ⟨"B".data, [13], "u".data, false⟩ ⊆
      {PageTok.page 12, PageTok.page 13, PageTok.page 14} := by decide
  exact ⟨h.1.mpr hsub, by rw [(h.2 hsub).1]⟩

/-- C3 counterexample: an article listing pages `[12, 14]`, with
`downloaded_pages = {12, 14}`, has its whole page set already recorded, yet
`download_article` does not skip and performs a network fetch, because the
skip test uses the hull `{12, 13, 14}`. -/
theorem C3_counterexample :
    (∀ p ∈ (⟨"A".data, [12, 14], "u".data, false⟩ : Article).pages,
      PageTok.page p ∈ ({PageTok.page 12, PageTok.page 14} : Finset PageTok)) ∧
    (download_article {PageTok.page 12, PageTok.page 14} ∅
      ⟨"A".data, [12, 14], "u".data, false⟩).skippedAllPages = false ∧
    (download_article {PageTok.page 12, PageTok.page 14} ∅
      ⟨"A".data, [12, 14], "u".data, false⟩).network = true := by
  exact ⟨by decide, by decide, by decide⟩

/-- C8: if the destination file of an article (named from its sorted page
numbers, or the fixed TOC name) is already on disk, `download_article`
performs no network access and writes nothing, leaving the file untouched. -/
theorem C8_file_exists_skip (downloaded : Finset PageTok)
    (fs : Finset (List Char)) (a : Article)
    (hfile : article_pdf_name a ∈ fs) :
    (download_article downloaded fs a).network = false ∧
    (download_article downloaded fs a).wrote = [] := by
  rw [download_article]
  by_cases h : article_page_range a \ downloaded = ∅
  · simp [h]
  · simp [h, hfile]

/-- C8 witness: re-running against a directory already containing
`pages_7.pdf` performs no network request for the page-7 article and writes
nothing. -/
theorem C8_file_exists_skip_witness :
    article_pdf_name ⟨"A".data, [7], "u".data, false⟩ = "pages_7.pdf".data ∧
    (download_article ∅ {"pages_7.pdf".data}
      ⟨"A".data, [7], "u".data, false⟩).network = false ∧
    (download_article ∅ {"pages_7.pdf".data}
      ⟨"A".data, [7], "u".data, false⟩).wrote = [] := by
  refine ⟨by decide, ?_⟩
  exact C8_file_exists_skip ∅ {"pages_7.pdf".data}
    ⟨"A".data, [7], "u".data, false⟩ (by decide)

/-- C9: for a non-TOC article `download_article` computes the contiguous hull
`{min(pages), ..., max(pages)}`, skips iff the hull is already recorded, and
otherwise records the whole hull — including pages strictly between min and
max that the article does not list; any later non-TOC article whose hull is
contained in the recorded set is then skipped without network access no
matter what files exist on disk. -/
theorem C9_hull_recorded (downloaded : Finset PageTok) (fs : Finset (List Char))
    (a : Article) (htoc : a.is_toc = false) (_hpages : a.pages ≠ []) :
    ((download_article downloaded fs a).skippedAllPages = true ↔
      pageHull a ⊆ downloaded) ∧
    (¬ pageHull a ⊆ downloaded →
      (download_article downloaded fs a).downloaded =
        downloaded ∪ pageHull a) ∧
    (¬ pageHull a ⊆ downloaded →
      ∀ p, listMin a.pages ≤ p → p ≤ listMax a.pages →
        PageTok.page p ∈ (download_article downloaded fs a).downloaded) ∧
    (∀ fs2 (b : Article), b.is_toc = false →
      pageHull b ⊆ (download_article downloaded fs a).downloaded →
      (download_article (download_article downloaded fs a).downloaded fs2
        b).network = false ∧
      (download_article (download_article downloaded fs a).downloaded fs2
        b).wrote = []) := by
  have hiff : (download_article downloaded fs a).skippedAllPages = true ↔
      pageHull a ⊆ downloaded := by
    rw [download_article_skippedAllPages_iff, article_page_range_eq_hull htoc]
  refine ⟨hiff, ?_, ?_, ?_⟩
  · intro hnsub
    rw [download_article_downloaded_of_not_subset, article_page_range_eq_hull htoc]
    rw [article_page_range_eq_hull htoc]
    exact hnsub
  · intro hnsub p hp1 hp2
    rw [download_article_downloaded_of_not_subset, article_page_range_eq_hull htoc]
    · exact Finset.mem_union_right _
        (Finset.mem_image.mpr ⟨p, Finset.mem_Icc.mpr ⟨hp1, hp2⟩, rfl⟩)
    · rw [article_page_range_eq_hull htoc]
      exact hnsub
  · intro fs2 b htoc2 hsub
    have hskip : download_article
        (download_article downloaded fs a).downloaded fs2 b =
        ⟨(download_article downloaded fs a).downloaded, [], false, true,
          false⟩ :=
      download_article_of_skip
        (by rw [article_page_range_eq_hull htoc2]; exact hsub)
    rw [hskip]
    exact ⟨rfl, rfl⟩

/-- C9 witness: downloading an article listing pages `[12, 14]` records the
hull `{12, 13, 14}`; a later article listing only page 13 is then skipped
with no network access although no file for page 13 exists. -/
theorem C9_hull_recorded_witness :
    (download_article ∅ ∅ ⟨"A".data, [12, 14], "u".data, false⟩).downloaded =
      ∅ ∪ pageHull ⟨"A".data, [12, 14], "u".data, false⟩ ∧
    (download_article
      (download_article ∅ ∅ ⟨"A".data, [12, 14], "u".data, false⟩).downloaded
      ∅ ⟨"B".data, [13], "u".data, false⟩).network = false := by
  have h := C9_hull_recorded ∅ ∅ ⟨"A".data, [12, 14], "u".data, false⟩
    rfl (by decide)
  refine ⟨h.2.1 (by decide), ?_⟩
  exact (h.2.2.2 ∅ ⟨"B".data, [13], "u".data, false⟩ rfl (by decide)).1

/-- Three-way comparison of naturals. -/
def cmpNat (a b : Nat) : Ordering :=
  if a < b then Ordering.lt else if b < a then Ordering.gt else Ordering.eq

/-- Lexicographic three-way comparison of lists under an element
comparator. -/
def cmpList (cmp : α → α → Ordering) : List α → List α → Ordering
  | [], [] => Ordering.eq
  | [], _ :: _ => Ordering.lt
  | _ :: _, [] => Ordering.gt
  | a :: as, b :: bs =>
    match cmp a b with
    | Ordering.eq => cmpList cmp as bs
    | o => o

/-- Comparison of characters by code point, as Python compares strings. -/
def cmpChar (a b : Char) : Ordering := cmpNat a.toNat b.toNat

theorem cmpNat_refl (a : Nat) : cmpNat a a = Ordering.eq := by
  simp [cmpNat]

theorem cmpNat_swap (a b : Nat) : (cmpNat a b).swap = cmpNat b a := by
  unfold cmpNat
  rcases Nat.lt_trichotomy a b with h | h | h
  · simp [h, Nat.lt_asymm h, Ordering.swap]
  · simp [h, Ordering.swap, Nat.lt_irrefl]
  · simp [h, Nat.lt_asymm h, Ordering.swap]

theorem cmpNat_eq_iff {a b : Nat} : cmpNat a b = Ordering.eq ↔ a = b := by
  unfold cmpNat
  split_ifs with h1 h2 <;> constructor <;> intro h <;> first
    | omega
    | exact absurd h (by decide)
    | rfl

theorem cmpNat_lt_iff {a b : Nat} : cmpNat a b = Ordering.lt ↔ a < b := by
  unfold cmpNat
  split_ifs with h1 h2 <;> constructor <;> intro h <;> first
    | omega
    | exact absurd h (by decide)
    | rfl

theorem cmpNat_left_congr (a b c : Nat) (h : cmpNat a b = Ordering.eq) :
    cmpNat b c = cmpNat a c := by
  rw [cmpNat_eq_iff.mp h]

theorem cmpNat_lt_trans {a b c : Nat} (h1 : cmpNat a b = Ordering.lt)
    (h2 : cmpNat b c = Ordering.lt) : cmpNat a c = Ordering.lt :=
  cmpNat_lt_iff.mpr (Nat.lt_trans (cmpNat_lt_iff.mp h1) (cmpNat_lt_iff.mp h2))

theorem cmpChar_refl (a : Char) : cmpChar a a = Ordering.eq := cmpNat_refl _

theorem cmpChar_swap (a b : Char) : (cmpChar a b).swap = cmpChar b a :=
  cmpNat_swap _ _

theorem cmpChar_left_congr (a b c : Char) (h : cmpChar a b = Ordering.eq) :
    cmpChar b c = cmpChar a c := cmpNat_left_congr _ _ _ h

theorem cmpChar_lt_trans {a b c : Char} (h1 : cmpChar a b = Ordering.lt)
    (h2 : cmpChar b c = Ordering.lt) : cmpChar a c = Ordering.lt :=
  cmpNat_lt_trans h1 h2

theorem cmpList_refl {cmp : α → α → Ordering}
    (hrefl : ∀ a, cmp a a = Ordering.eq) :
    ∀ l, cmpList cmp l l = Ordering.eq := by
  intro l
  induction l with
  | nil => rfl
  | cons a t ih => simp [cmpList, hrefl a, ih]

theorem cmpList_swap {cmp : α → α → Ordering}
    (hsw : ∀ a b, (cmp a b).swap = cmp b a) :
    ∀ l1 l2, (cmpList cmp l1 l2).swap = cmpList cmp l2 l1 := by
  intro l1
  induction l1 with
  | nil => intro l2; cases l2 <;> rfl
  | cons a as ih =>
    intro l2
    cases l2 with
    | nil => rfl
    | cons b bs =>
      have hba : cmp b a = (cmp a b).swap := (hsw a b).symm
      cases hab : cmp a b with
      | lt => simp [cmpList, hab, hba, Ordering.swap]
      | gt => simp [cmpList, hab, hba, Ordering.swap]
      | eq =>
        rw [hab] at hba
        simp only [cmpList, hab, hba]
        exact ih bs

theorem cmpList_left_congr {cmp : α → α → Ordering}
    (hlc : ∀ a b c, cmp a b = Ordering.eq → cmp b c = cmp a c) :
    ∀ l1 l2 l3, cmpList cmp l1 l2 = Ordering.eq →
      cmpList cmp l2 l3 = cmpList cmp l1 l3 := by
  intro l1
  induction l1 with
  | nil =>
    intro l2 l3 h
    cases l2 with
    | nil => rfl
    | cons b bs => exact absurd h (by simp [cmpList])
  | cons a as ih =>
    intro l2 l3 h
    cases l2 with
    | nil => exact absurd h (by simp [cmpList])
    | cons b bs =>
      have hab : cmp a b = Ordering.eq := by
        cases hab : cmp a b
        · simp [cmpList, hab] at h
        · rfl
        · simp [cmpList, hab] at h
      have htail : cmpList cmp as bs = Ordering.eq := by
        simpa [cmpList, hab] using h
      cases l3 with
      | nil => rfl
      | cons c cs =>
        have hhead : cmp b c = cmp a c := hlc a b c hab
        cases hac : cmp a c <;>
          simp [cmpList, hhead, hac, ih bs cs htail]

theorem cmpList_lt_trans {cmp : α → α → Ordering}
    (hsw : ∀ a b, (cmp a b).swap = cmp b a)
    (hlc : ∀ a b c, cmp a b = Ordering.eq → cmp b c = cmp a c)
    (hlt : ∀ a b c, cmp a b = Ordering.lt → cmp b c = Ordering.lt →
      cmp a c = Ordering.lt) :
    ∀ l1 l2 l3, cmpList cmp l1 l2 = Ordering.lt →
      cmpList cmp l2 l3 = Ordering.lt → cmpList cmp l1 l3 = Ordering.lt := by
  intro l1
  induction l1 with
  | nil =>
    intro l2 l3 h1 h2
    cases l2 with
    | nil => exact h2
    | cons b bs =>
      cases l3 with
      | nil => exact absurd h2 (by simp [cmpList])
      | cons c cs => rfl
  | cons a as ih =>
    intro l2 l3 h1 h2
    cases l2 with
    | nil => exact absurd h1 (by simp [cmpList])
    | cons b bs =>
      cases l3 with
      | nil => exact absurd h2 (by simp [cmpList])
      | cons c cs =>
        cases hab : cmp a b with
        | gt => simp [cmpList, hab] at h1
        | lt =>
          cases hbc : cmp b c with
          | gt => simp [cmpList, hbc] at h2
          | lt => simp [cmpList, hlt a b c hab hbc]
          | eq =>
            have hba : cmp b a = Ordering.gt := by
              rw [← hsw a b, hab]; rfl
            have hca : cmp c a = Ordering.gt := by
              rw [hlc b c a hbc]; exact hba
            have hac : cmp a c = Ordering.lt := by
              have hh := hsw a c
              rw [hca] at hh
              cases h : cmp a c <;> rw [h] at hh <;>
                first | rfl | exact absurd hh (by decide)
            simp [cmpList, hac]
        | eq =>
          have h1t : cmpList cmp as bs = Ordering.lt := by
            simpa [cmpList, hab] using h1
          cases hbc : cmp b c with
          | gt => simp [cmpList, hbc] at h2
          | lt =>
            have hac : cmp a c = Ordering.lt := by
              rw [← hlc a b c hab]; exact hbc
            simp [cmpList, hac]
          | eq =>
            have h2t : cmpList cmp bs cs = Ordering.lt := by
              simpa [cmpList, hbc] using h2
            have hac : cmp a c = Ordering.eq := by
              rw [← hlc a b c hab]; exact hbc
            simp [cmpList, hac, ih bs cs h1t h2t]

/-- Python string `<=` (lexicographic by code point), used by `sorted` on the
filename tokens in `extract_single_pages_from_pdfs`. -/
def strLe (s t : List Char) : Prop := cmpList cmpChar s t ≠ Ordering.gt

instance : DecidableRel strLe := fun s t => by
  unfold strLe; infer_instance

/-- A chunk of a filename as the `natsort` library tokenizes it: a maximal
run of decimal digits (compared numerically) or a maximal run of other
characters (compared as text). -/
inductive Chunk where
  | numRun (ds : List Char)
  | strRun (s : List Char)
deriving DecidableEq

/-- Tokenization of a string into digit and non-digit runs, as `natsort`
keys strings. -/
def tokenize : List Char → List Chunk
  | [] => []
  | c :: t =>
    let r := tokenize t
    if c.isDigit then
      match r with
      | Chunk.numRun ds :: rest => Chunk.numRun (c :: ds) :: rest
      | _ => Chunk.numRun [c] :: r
    else
      match r with
      | Chunk.strRun s :: rest => Chunk.strRun (c :: s) :: rest
      | _ => Chunk.strRun [c] :: r

/-- Comparison of two chunks: digit runs numerically, text runs
lexicographically; a digit run sorts before a text run. -/
def cmpChunk : Chunk → Chunk → Ordering
  | Chunk.numRun ds, Chunk.numRun es => cmpNat (valDigits ds) (valDigits es)
  | Chunk.strRun s, Chunk.strRun t => cmpList cmpChar s t
  | Chunk.numRun _, Chunk.strRun _ => Ordering.lt
  | Chunk.strRun _, Chunk.numRun _ => Ordering.gt

theorem cmpChunk_swap (x y : Chunk) : (cmpChunk x y).swap = cmpChunk y x := by
  cases x with
  | numRun ds =>
    cases y with
    | numRun es => exact cmpNat_swap _ _
    | strRun t => rfl
  | strRun s =>
    cases y with
    | numRun es => rfl
    | strRun t => exact cmpList_swap cmpChar_swap s t

theorem cmpChunk_left_congr (x y z : Chunk) (h : cmpChunk x y = Ordering.eq) :
    cmpChunk y z = cmpChunk x z := by
  cases x with
  | numRun ds =>
    cases y with
    | numRun es =>
      have hv : valDigits ds = valDigits es := cmpNat_eq_iff.mp h
      cases z with
      | numRun fs => rw [cmpChunk, cmpChunk, ← hv]
      | strRun u => rfl
    | strRun t => simp [cmpChunk] at h
  | strRun s =>
    cases y with
    | numRun es => simp [cmpChunk] at h
    | strRun t =>
      cases z with
      | numRun fs => rfl
      | strRun u =>
        exact cmpList_left_congr cmpChar_left_congr s t u h

theorem cmpChunk_lt_trans (x y z : Chunk) (h1 : cmpChunk x y = Ordering.lt)
    (h2 : cmpChunk y z = Ordering.lt) : cmpChunk x z = Ordering.lt := by
  cases x with
  | numRun ds =>
    cases y with
    | numRun es =>
      cases z with
      | numRun fs => exact cmpNat_lt_trans h1 h2
      | strRun u => rfl
    | strRun t =>
      cases z with
      | numRun fs => exact absurd h2 (by simp [cmpChunk])
      | strRun u => rfl
  | strRun s =>
    cases y with
    | numRun es => exact absurd h1 (by simp [cmpChunk])
    | strRun t =>
      cases z with
      | numRun fs => exact absurd h2 (by simp [cmpChunk])
      | strRun u =>
        exact cmpList_lt_trans cmpChar_swap cmpChar_left_congr
          (fun a b c hab hbc => cmpChar_lt_trans hab hbc) s t u h1 h2

/-- The `natsort` key comparison of two filenames. -/
def natKeyCmp (a b : List Char) : Ordering :=
  cmpList cmpChunk (tokenize a) (tokenize b)

/-- The "comes no later than" relation under natural sorting of filenames. -/
def natLe (a b : List Char) : Prop := natKeyCmp a b ≠ Ordering.gt

instance : DecidableRel natLe := fun a b => by
  unfold natLe; infer_instance

theorem natKeyCmp_swap (a b : List Char) :
    (natKeyCmp a b).swap = natKeyCmp b a :=
  cmpList_swap cmpChunk_swap _ _

instance : IsTotal (List Char) natLe := by
  constructor
  intro a b
  by_cases h : natKeyCmp a b = Ordering.gt
  · right
    rw [natLe, ← natKeyCmp_swap, h]
    decide
  · exact Or.inl h

instance : IsTrans (List Char) natLe := by
  constructor
  intro a b c h1 h2
  rw [natLe] at h1 h2 ⊢
  intro hac
  cases hab : natKeyCmp a b with
  | gt => exact h1 hab
  | eq =>
    apply h2
    rw [natKeyCmp] at hab hac ⊢
    rw [cmpList_left_congr cmpChunk_left_congr (tokenize a) (tokenize b)
      (tokenize c) hab]
    exact hac
  | lt =>
    cases hbc : natKeyCmp b c with
    | gt => exact h2 hbc
    | lt =>
      have := cmpList_lt_trans cmpChunk_swap cmpChunk_left_congr
        cmpChunk_lt_trans _ _ _ hab hbc
      rw [natKeyCmp] at hac
      rw [this] at hac
      exact absurd hac (by decide)
    | eq =>
      have hca : natKeyCmp c a = natKeyCmp b a :=
        cmpList_left_congr cmpChunk_left_congr _ _ _ hbc
      have hca2 : natKeyCmp c a = Ordering.lt := by
        rw [← natKeyCmp_swap, hac]; rfl
      have hba : natKeyCmp b a = Ordering.gt := by
        rw [← natKeyCmp_swap, hab]; rfl
      rw [hca2, hba] at hca
      exact absurd hca (by decide)

/-- The order in which `natsorted(indir.iterdir())` lists the page files:
a stable sort by the natural-sort key. -/
def natsortList (l : List (List Char)) : List (List Char) :=
  List.insertionSort natLe l

/-- Embedding of `merge_pdf` (src/proquest_dl/proquest_dl.py, lines 88-94):
the order in which the single-page files are passed to `qpdf --pages` and
hence concatenated into the combined document. -/
def merge_pdf (names : List (List Char)) : List (List Char) :=
  natsortList names

theorem cmpNat_gt_iff {a b : Nat} : cmpNat a b = Ordering.gt ↔ b < a := by
  unfold cmpNat
  split_ifs with h1 h2 <;> constructor <;> intro h <;> first
    | omega
    | exact absurd h (by decide)
    | rfl

theorem tokenize_digits_pdf :
    ∀ (ds : List Char), ds ≠ [] → (∀ c ∈ ds, c.isDigit) →
      tokenize (ds ++ ".pdf".data) =
        [Chunk.numRun ds, Chunk.strRun ".pdf".data]
  | [], h, _ => absurd rfl h
  | [d], _, hd => by
    have h1 : d.isDigit = true := hd d (List.mem_singleton_self d)
    show tokenize (d :: ".pdf".data) = _
    rw [tokenize, show tokenize (".pdf".data) =
      [Chunk.strRun ".pdf".data] from rfl]
    simp [h1]
  | d :: e :: t, _, hd => by
    have h1 : d.isDigit = true := hd d (List.mem_cons_self _ _)
    have ih := tokenize_digits_pdf (e :: t) (by simp)
      (fun c hc => hd c (List.mem_cons_of_mem _ hc))
    show tokenize (d :: ((e :: t) ++ ".pdf".data)) = _
    rw [tokenize, ih]
    simp [h1]

theorem tokenize_nondigit_prefix :
    ∀ (p : List Char), p ≠ [] → (∀ c ∈ p, c.isDigit = false) →
      ∀ (l : List Char) (ds : List Char) (rest : List Chunk),
        tokenize l = Chunk.numRun ds :: rest →
        tokenize (p ++ l) = Chunk.strRun p :: tokenize l
  | [], h, _, _, _, _, _ => absurd rfl h
  | [c], _, hp, l, ds, rest, hl => by
    have h1 : c.isDigit = false := hp c (List.mem_singleton_self c)
    show tokenize (c :: l) = _
    rw [tokenize, hl]
    simp [h1]
  | c :: e :: p2, _, hp, l, ds, rest, hl => by
    have h1 : c.isDigit = false := hp c (List.mem_cons_self _ _)
    have ih := tokenize_nondigit_prefix (e :: p2) (by simp)
      (fun x hx => hp x (List.mem_cons_of_mem _ hx)) l ds rest hl
    show tokenize (c :: ((e :: p2) ++ l)) = _
    rw [tokenize, ih, hl]
    simp [h1]

theorem tokenize_mkPagesName (ds : List Char) (h : isDigitStr ds) :
    tokenize (mkPagesName ds) =
      [Chunk.strRun "pages_".data, Chunk.numRun ds,
        Chunk.strRun ".pdf".data] := by
  rw [mkPagesName, List.append_assoc,
    tokenize_nondigit_prefix "pages_".data (by decide) (by decide)
      (ds ++ ".pdf".data) ds [Chunk.strRun ".pdf".data]
      (tokenize_digits_pdf ds h.1 h.2),
    tokenize_digits_pdf ds h.1 h.2]

/-- C6: `merge_pdf` concatenates the page files in natural numeric order of
the page-number portion of the filename: for any two `pages_<N>.pdf` names
the comparator orders them by the numeric value of `<N>`; the merged order is
pairwise sorted under that comparator; and this disagrees with lexicographic
string order, which puts `"pages_10.pdf"` before `"pages_5.pdf"`, while
`merge_pdf` places `pages_5.pdf` first. -/
theorem C6_merge_pdf_numeric_order :
    (∀ ds es, isDigitStr ds → isDigitStr es → valDigits ds < valDigits es →
      natKeyCmp (mkPagesName ds) (mkPagesName es) = Ordering.lt ∧
      ¬ natLe (mkPagesName es) (mkPagesName ds)) ∧
    (∀ names, List.Sorted natLe (merge_pdf names)) ∧
    cmpList cmpChar "pages_10.pdf".data "pages_5.pdf".data = Ordering.lt ∧
    merge_pdf ["pages_10.pdf".data, "pages_5.pdf".data] =
      ["pages_5.pdf".data, "pages_10.pdf".data] := by
  refine ⟨?_, ?_, by decide, by decide⟩
  · intro ds es hds hes hv
    have h1 : cmpChunk (Chunk.strRun "pages_".data)
        (Chunk.strRun "pages_".data) = Ordering.eq := by decide
    have h2 : cmpChunk (Chunk.numRun ds) (Chunk.numRun es) = Ordering.lt := by
      rw [cmpChunk]; exact cmpNat_lt_iff.mpr hv
    have h3 : cmpChunk (Chunk.numRun es) (Chunk.numRun ds) = Ordering.gt := by
      rw [cmpChunk]; exact cmpNat_gt_iff.mpr hv
    constructor
    · rw [natKeyCmp, tokenize_mkPagesName ds hds, tokenize_mkPagesName es hes]
      simp [cmpList, h1, h2]
    · rw [natLe, natKeyCmp, tokenize_mkPagesName es hes,
        tokenize_mkPagesName ds hds]
      simp [cmpList, h1, h3]
  · intro names
    exact List.sorted_insertionSort natLe names

/-- C6 witness: instantiating at the digit strings `"5"` and `"10"`: the
comparator puts `pages_5.pdf` strictly before `pages_10.pdf`. -/
theorem C6_merge_pdf_numeric_order_witness :
    natKeyCmp (mkPagesName "5".data) (mkPagesName "10".data) = Ordering.lt ∧
    ¬ natLe (mkPagesName "10".data) (mkPagesName "5".data) :=
  C6_merge_pdf_numeric_order.1 "5".data "10".data
    (by decide) (by decide) (by decide)

/-- Embedding of the regex step of `get_pages_from_file`
(src/proquest_dl/proquest_dl.py, lines 339-341): extract the text between
`pages_` and `.pdf` of a page filename; a non-matching name raises
(`.group` on `None`), modelled as `none`. -/
def stripPagesName (name : List Char) : Option (List Char) :=
  if "pages_".data.isPrefixOf name && ".pdf".data.isSuffixOf name
  then some ((name.drop 6).take (name.length - 10)) else none

/-- Embedding of `get_pages_from_file` (src/proquest_dl/proquest_dl.py,
lines 339-341): the comma-split tokens of the filename body.  No hyphen
expansion is performed. -/
def get_pages_from_file (name : List Char) : Option (List (List Char)) :=
  (stripPagesName name).map (splitSep ',')

/-- The per-file step of `extract_single_pages_from_pdfs`
(src/proquest_dl/proquest_dl.py, lines 112-135): sort the filename tokens as
Python strings; the token at (0-based) position `i` names the output file
`pages_<token>.pdf`, extracted from physical page `i + 1` of the source
file. -/
def explode_one (name : List Char) : Option (List ((List Char) × Nat)) :=
  (get_pages_from_file name).map fun toks =>
    (List.insertionSort strLe toks).enum.map fun p => (mkPagesName p.2, p.1 + 1)

/-- Embedding of `extract_single_pages_from_pdfs`
(src/proquest_dl/proquest_dl.py, lines 112-135) over the natural-sorted
input directory: the list of (output file, source file, 1-based physical
page) extractions performed. -/
def extract_single_pages_from_pdfs (names : List (List Char)) :
    Option (List ((List Char) × (List Char) × Nat)) :=
  (mapOpt (fun n => (explode_one n).map fun l =>
      l.map fun pr => (pr.1, n, pr.2))
    (natsortList names)).map List.flatten

/-- C2: on an input file `pages_12-14.pdf` the explode stage of
src/proquest_dl/proquest_dl.py performs exactly one extraction — physical
page 1 into an output file literally named `pages_12-14.pdf` — rather than
extracting physical pages 1, 2, 3 into `pages_12.pdf`, `pages_13.pdf`,
`pages_14.pdf`: `get_pages_from_file` only splits on commas and never
expands a hyphenated range. -/
theorem C2_hyphen_not_expanded :
    explode_one ("pages_12-14.pdf".data) =
      some [("pages_12-14.pdf".data, 1)] ∧
    extract_single_pages_from_pdfs ["pages_12-14.pdf".data] =
      some [("pages_12-14.pdf".data, "pages_12-14.pdf".data, 1)] ∧
    "pages_12.pdf".data ∉ [("pages_12-14.pdf".data, 1)].map Prod.fst ∧
    "pages_13.pdf".data ∉ [("pages_12-14.pdf".data, 1)].map Prod.fst ∧
    "pages_14.pdf".data ∉ [("pages_12-14.pdf".data, 1)].map Prod.fst := by
  exact ⟨by decide, by decide, by decide, by decide, by decide⟩

/-- The canonical single-page filename `pages_<i>.pdf` for page number `i`. -/
def pageFileName (i : Nat) : List Char := mkPagesName (strNat i)

theorem mkPagesName_injective : Function.Injective mkPagesName := by
  intro a b h
  rw [mkPagesName, mkPagesName, List.append_assoc, List.append_assoc] at h
  exact List.append_cancel_right (List.append_cancel_left h)

theorem pageFileName_injective : Function.Injective pageFileName :=
  fun _ _ h => strNat_injective (mkPagesName_injective h)

/-- The `pages_we_have` computation of `insert_white_pages_in_issue`
(src/proquest_dl/proquest_dl.py, lines 99-103): parse every input filename
with `get_pages_from_file`, chain the comma tokens, convert each with
`int()`, and sort ascending. -/
def pages_we_have (names : List (List Char)) : Option (List Nat) :=
  match mapOpt get_pages_from_file names with
  | none => none
  | some tokss =>
    match mapOpt parseInt tokss.flatten with
    | none => none
    | some pages => some (List.insertionSort (· ≤ ·) pages)

/-- Embedding of `insert_white_pages_in_issue`
(src/proquest_dl/proquest_dl.py, lines 98-108): the list of filenames under
which the blank template is copied into the output directory — one
`pages_<i>.pdf` for every `i` in `range(1, max(pages_we_have) + 1)` that is
not in `pages_we_have`.  `max([])` raises `ValueError`, modelled as
`none`. -/
def insert_white_pages_in_issue (names : List (List Char)) :
    Option (List (List Char)) :=
  match pages_we_have names with
  | none => none
  | some pages =>
    if pages = [] then none
    else some (((List.range' 1 (listMax pages)).filter
        (fun i => decide (i ∉ pages))).map pageFileName)

theorem insert_white_pages_eq {names : List (List Char)} {P : List Nat}
    (hP : pages_we_have names = some P) (hne : P ≠ []) :
    insert_white_pages_in_issue names =
      some (((List.range' 1 (listMax P)).filter
        (fun i => decide (i ∉ P))).map pageFileName) := by
  rw [insert_white_pages_in_issue, hP]
  simp [hne]

theorem mem_white_pages_writes {P : List Nat} {n : List Char} :
    n ∈ ((List.range' 1 (listMax P)).filter
        (fun i => decide (i ∉ P))).map pageFileName ↔
      ∃ i, 1 ≤ i ∧ i ≤ listMax P ∧ i ∉ P ∧ n = pageFileName i := by
  constructor
  · intro hn
    rcases List.mem_map.mp hn with ⟨i, hi, rfl⟩
    rcases List.mem_filter.mp hi with ⟨hir, hip⟩
    rcases List.mem_range'_1.mp hir with ⟨h1, h2⟩
    refine ⟨i, h1, ?_, of_decide_eq_true hip, rfl⟩
    omega
  · rintro ⟨i, h1, h2, h3, rfl⟩
    refine List.mem_map_of_mem _ (List.mem_filter.mpr
      ⟨List.mem_range'_1.mpr ⟨h1, ?_⟩, decide_eq_true h3⟩)
    omega

/-- C5: if the pages parsed from the input directory are the nonempty list
`P` of page numbers (all at least 1) with maximum `M`, and the output
directory currently holds exactly the single-page files for `P`, then after
the gap filler runs the output directory holds exactly one file
`pages_<i>.pdf` for every integer `i` in `[1, M]` — `M` files in total, with
no gaps. -/
theorem C5_gap_filler_completes (names : List (List Char)) (P : List Nat)
    (hP : pages_we_have names = some P) (hne : P ≠ [])
    (hpos : ∀ p ∈ P, 1 ≤ p) (outdir0 : Finset (List Char))
    (hout : outdir0 = P.toFinset.image pageFileName) :
    ∃ ws, insert_white_pages_in_issue names = some ws ∧
      outdir0 ∪ ws.toFinset =
        (Finset.Icc 1 (listMax P)).image pageFileName ∧
      (outdir0 ∪ ws.toFinset).card = listMax P := by
  subst hout
  have hset : P.toFinset.image pageFileName ∪ (((List.range' 1 (listMax P)).filter
      (fun i => decide (i ∉ P))).map pageFileName).toFinset =
      (Finset.Icc 1 (listMax P)).image pageFileName := by
    ext n
    simp only [Finset.mem_union, Finset.mem_image, List.mem_toFinset,
      Finset.mem_Icc]
    constructor
    · rintro (⟨i, hi, rfl⟩ | hn)
      · exact ⟨i, ⟨hpos i hi, le_listMax_of_mem hi⟩, rfl⟩
      · rcases mem_white_pages_writes.mp hn with ⟨i, h1, h2, _, rfl⟩
        exact ⟨i, ⟨h1, h2⟩, rfl⟩
    · rintro ⟨i, ⟨h1, h2⟩, rfl⟩
      by_cases hiP : i ∈ P
      · exact Or.inl ⟨i, hiP, rfl⟩
      · exact Or.inr (mem_white_pages_writes.mpr ⟨i, h1, h2, hiP, rfl⟩)
  refine ⟨_, insert_white_pages_eq hP hne, hset, ?_⟩
  rw [hset, Finset.card_image_of_injective _ pageFileName_injective,
    Nat.card_Icc]
  omega

/-- C5 witness: input pages `{1, 3}` (maximum 3); the gap filler writes
exactly `pages_2.pdf`, and the resulting directory holds 3 files. -/
theorem C5_gap_filler_completes_witness :
    insert_white_pages_in_issue ["pages_1.pdf".data, "pages_3.pdf".data] =
      some ["pages_2.pdf".data] ∧
    (([1, 3] : List Nat).toFinset.image pageFileName ∪
      (["pages_2.pdf".data] : List (List Char)).toFinset).card = 3 := by
  obtain ⟨ws, h1, h2, h3⟩ := C5_gap_filler_completes
    ["pages_1.pdf".data, "pages_3.pdf".data] [1, 3]
    (by decide) (by decide) (by decide) _ rfl
  have hval : insert_white_pages_in_issue
      ["pages_1.pdf".data, "pages_3.pdf".data] =
      some ["pages_2.pdf".data] := by decide
  have hws : ws = ["pages_2.pdf".data] := by
    rw [hval] at h1
    exact (Option.some_inj.mp h1).symm
  refine ⟨hval, ?_⟩
  rw [hws] at h3
  rw [show listMax [1, 3] = 3 from by decide] at h3
  exact h3

/-- C10: for a successfully parsed nonempty input page list `P` with maximum
`M`, the gap filler writes exactly the filenames `pages_<i>.pdf` for the
integers `i` in `[1, M]` that are absent from `P`; it never writes
`pages_<i>.pdf` for any `i` in `P`, and every file already in the output
directory is still present afterwards (the final contents are the old
contents united with the writes). -/
theorem C10_gap_filler_frame (names : List (List Char)) (P : List Nat)
    (hP : pages_we_have names = some P) (hne : P ≠ []) :
    ∃ ws, insert_white_pages_in_issue names = some ws ∧
      (∀ n ∈ ws, ∃ i, 1 ≤ i ∧ i ≤ listMax P ∧ i ∉ P ∧ n = pageFileName i) ∧
      (∀ i ∈ P, pageFileName i ∉ ws) ∧
      (∀ i, 1 ≤ i → i ≤ listMax P → i ∉ P → pageFileName i ∈ ws) ∧
      (∀ outdir0 : Finset (List Char), ∀ n ∈ outdir0,
        n ∈ outdir0 ∪ ws.toFinset) := by
  refine ⟨_, insert_white_pages_eq hP hne, ?_, ?_, ?_, ?_⟩
  · intro n hn
    exact mem_white_pages_writes.mp hn
  · intro i hiP hmem
    rcases mem_white_pages_writes.mp hmem with ⟨j, _, _, hjP, hEq⟩
    rw [pageFileName_injective hEq] at hiP
    exact hjP hiP
  · intro i h1 h2 h3
    exact mem_white_pages_writes.mpr ⟨i, h1, h2, h3, rfl⟩
  · intro outdir0 n hn
    exact Finset.mem_union_left _ hn

/-- C10 witness: input file `pages_2,4.pdf` (pages `{2, 4}`, maximum 4); the
gap filler writes exactly `pages_1.pdf` and `pages_3.pdf`, and does not
write `pages_2.pdf`. -/
theorem C10_gap_filler_frame_witness :
    insert_white_pages_in_issue ["pages_2,4.pdf".data] =
      some ["pages_1.pdf".data, "pages_3.pdf".data] ∧
    pageFileName 2 ∉
      (["pages_1.pdf".data, "pages_3.pdf".data] : List (List Char)) ∧
    pageFileName 3 ∈
      (["pages_1.pdf".data, "pages_3.pdf".data] : List (List Char)) := by
  obtain ⟨ws, h1, _, hnever, hcompl, _⟩ := C10_gap_filler_frame
    ["pages_2,4.pdf".data] [2, 4] (by decide) (by decide)
  have hval : insert_white_pages_in_issue ["pages_2,4.pdf".data] =
      some ["pages_1.pdf".data, "pages_3.pdf".data] := by decide
  have hws : ws = ["pages_1.pdf".data, "pages_3.pdf".data] := by
    rw [hval] at h1
    exact (Option.some_inj.mp h1).symm
  refine ⟨hval, ?_, ?_⟩
  · have h2 := hnever 2 (by decide)
    rwa [hws] at h2
  · have h3 := hcompl 3 (by decide) (by decide) (by decide)
    rwa [hws] at h3

/-- Embedding of `insert_bookmarks` (src/proquest_dl/proquest_dl.py, lines
73-84): the bookmark entries written to `bookmark.txt`, one `(title,
anchor)` line per article whose `pages` is truthy (non-empty), anchored at
`article.pages[0]`, in article-list order. -/
def insert_bookmarks (articles : List Article) : List ((List Char) × Nat) :=
  articles.filterMap fun a =>
    match a.pages with
    | [] => none
    | p :: _ => some (a.title, p)

/-- C7 (amended): `insert_bookmarks` emits exactly one bookmark per article
with a non-empty page list — regardless of its title — anchored at the first
element of that article's page list, in article-list order. -/
theorem C7_bookmarks_by_nonempty_pages (articles : List Article) :
    insert_bookmarks articles =
      (articles.filter fun a => !a.pages.isEmpty).map
        (fun a => (a.title, a.pages.headD 0)) ∧
    ∀ e ∈ insert_bookmarks articles,
      ∃ a ∈ articles, a.title = e.1 ∧ a.pages.head? = some e.2 := by
  constructor
  · induction articles with
    | nil => rfl
    | cons a t ih =>
      cases hp : a.pages with
      | nil => simp [insert_bookmarks, List.filterMap_cons, hp,
          List.filter_cons, ih, insert_bookmarks] at ih ⊢; exact ih
      | cons p ps =>
        simp only [insert_bookmarks, List.filterMap_cons, hp,
          List.filter_cons, List.isEmpty_cons, Bool.not_false, if_pos,
          List.map_cons, List.headD_cons] at ih ⊢
        simp [ih]
  · intro e he
    rcases List.mem_filterMap.mp he with ⟨a, ha, hfa⟩
    cases hp : a.pages with
    | nil => rw [hp] at hfa; exact absurd hfa (by simp)
    | cons p ps =>
      rw [hp] at hfa
      simp only [Option.some_inj] at hfa
      exact ⟨a, ha, by rw [← hfa], by rw [hp, ← hfa]; rfl⟩

/-- C7 counterexample: an article with an empty title but a non-empty page
list receives a bookmark, and an article with a non-empty title but an empty
page list receives none — inclusion is decided by the page list, not the
title. -/
theorem C7_counterexample :
    insert_bookmarks [⟨[], [4], "u".data, false⟩] = [([], 4)] ∧
    (⟨[], [4], "u".data, false⟩ : Article).title = [] ∧
    insert_bookmarks [⟨"X".data, [], "u".data, false⟩] = [] ∧
    (⟨"X".data, [], "u".data, false⟩ : Article).title ≠ [] := by
  exact ⟨by decide, by decide, by decide, by decide⟩

/-- The statements of `main` (src/proquest_dl/proquest_dl.py, lines
347-655), in source order, at the granularity the claims need. -/
inductive MainStep where
  | tmpdirGuard
  | makeDirs
  | openBrowser
  | connectProQuest
  | loginWait
  | getPublicationName
  | selectIssue
  | getArtCount
  | getIssueDate
  | buildOutputPath
  | checkOutputNotExists
  | retrieveArticlesList
  | downloadArticles
  | closeBrowser
  | removeLastPages
  | removeCropBox
  | getPageSize
  | economistRenameToc
  | generateTocStep
  | extractSinglePages
  | generateWhitePage
  | insertWhitePages
  | downloadCover
  | mergePages
  | insertBookmarksStep
  | compressPdf
  | moveFinal
deriving DecidableEq

/-- Which steps of `main` perform network traffic: the initial
`browser.get(proquest_url)`, the per-article fetches of
`download_articles`, and the `requests.get` for the cover image. -/
def isNetwork : MainStep → Bool
  | MainStep.connectProQuest => true
  | MainStep.downloadArticles => true
  | MainStep.downloadCover => true
  | _ => false

/-- Embedding of `Issue.build_final_fp` (src/proquest_dl/Issue.py, lines
16-22): the deterministic output filename
`<publication-name-without-whitespace>-<date>.pdf`. -/
def build_final_fp (publication_name dateStr : List Char) : List Char :=
  (publication_name.filter fun c => !c.isWhitespace) ++ '-' :: dateStr ++
    ".pdf".data

/-- Embedding of the execution of `main` (src/proquest_dl/proquest_dl.py,
lines 347-655): the statements a run actually executes before it
terminates, as a function of the `--tmpdir` argument string and of whether
the output file already exists on disk.  After argument parsing, the guard
`if args.tmpdir: raise Exception(...)` (lines 437-438) raises whenever the
tmpdir argument is a non-empty string — and argparse supplies the non-empty
default `"./proquest-dl-temp"`, so every ordinary invocation stops at this
guard.  With an empty tmpdir string the very next statement,
`args.tmpdir / "download"` (line 439), raises `TypeError` (`/` on two
strings) inside the directory-variables block.  Either way the run ends
before the browser is opened: no later statement of `main` — in particular
neither the connection, nor any fetch, nor the output-file existence check
`assert not pdf_fp.is_file()` (line 510) — is reachable, whatever the state
of the output file. -/
def main_run (tmpdir : List Char) (_outputExists : Bool) : List MainStep :=
  if tmpdir = [] then [MainStep.tmpdirGuard, MainStep.makeDirs]
  else [MainStep.tmpdirGuard]

/-- C4: a re-run with the output file already present at the deterministic
path never reaches the fail-fast existence check the claim describes:
`main` raises at the tmpdir guard on every invocation (the argparse default
`"./proquest-dl-temp"` is truthy, and an empty tmpdir crashes one line
later), so the run performs no network access — but only because no run
performs any step at all: the output path is never computed, the existence
check never executes, and the abort is identical whether or not the output
file exists. -/
theorem C4_tmpdir_guard_aborts :
    (∀ oe : Bool, main_run "./proquest-dl-temp".data oe =
      [MainStep.tmpdirGuard]) ∧
    (∀ tmpdir : List Char, ∀ oe : Bool,
      (main_run tmpdir oe).all (fun s => !isNetwork s) = true) ∧
    (∀ tmpdir : List Char, ∀ oe : Bool,
      MainStep.checkOutputNotExists ∉ main_run tmpdir oe) ∧
    (∀ tmpdir : List Char, ∀ oe : Bool,
      MainStep.openBrowser ∉ main_run tmpdir oe) ∧
    (∀ oe : Bool,
      main_run "./proquest-dl-temp".data true =
        main_run "./proquest-dl-temp".data oe) ∧
    isNetwork MainStep.connectProQuest = true ∧
    build_final_fp "The Economist".data "2023-09-09".data =
      "TheEconomist-2023-09-09.pdf".data := by
  refine ⟨by decide, ?_, ?_, ?_, by decide, by decide, by decide⟩
  · intro tmpdir oe
    rw [main_run]
    split <;> decide
  · intro tmpdir oe
    rw [main_run]
    split <;> decide
  · intro tmpdir oe
    rw [main_run]
    split <;> decide

/-- C7 witness: an issue with a page-bearing article "A" at pages `[4, 5]`
and a page-less TOC gets exactly one bookmark, `("A", 4)`. -/
theorem C7_bookmarks_by_nonempty_pages_witness :
    insert_bookmarks [⟨"A".data, [4, 5], "u".data, false⟩,
      ⟨"T".data, [], "u".data, true⟩] = [("A".data, 4)] := by
  rw [(C7_bookmarks_by_nonempty_pages [⟨"A".data, [4, 5], "u".data, false⟩,
    ⟨"T".data, [], "u".data, true⟩]).1]
  decide
